import Mathlib

/-!
Verification development for the `hello-agents` repository (directory
`learning-space-code/C2`).  The Python sources `main.py` (ReAct agent) and
`plan-executor.py` (Plan-and-Solve agent) are shallowly embedded below:
strings are `List Char`, the streaming LLM client is an oracle
`Nat → Option (List Char)` giving the full concatenated response of each
model call in order (`none` models the `None` failure sentinel produced by
the `except` branch of `HelloAgentsLLM.think`), and the tool registry is a
lookup function `List Char → Option (List Char → List Char)` mirroring
`ToolExecutor.getTool`.  Print side effects are ignored.
-/

/-- Python `str` truthiness-relevant whitespace, as removed by `str.strip()`. -/
def isPySpace (c : Char) : Bool :=
  c = ' ' || c = '\t' || c = '\n' || c = '\r' || c = '\x0b' || c = '\x0c'

/-- Embeds Python `str.strip()`. -/
def pyStrip (s : List Char) : List Char :=
  ((s.dropWhile isPySpace).reverse.dropWhile isPySpace).reverse

/-- The suffix that follows the first (leftmost) occurrence of `pat` in `s`,
or `none` when `pat` does not occur.  This is the scanning behaviour of
`re.search` for a pattern that starts with the literal `pat`. -/
def findAfter (pat : List Char) : List Char → Option (List Char)
  | [] => none
  | c :: rest =>
    if pat.isPrefixOf (c :: rest) then some (List.drop pat.length (c :: rest))
    else findAfter pat rest

/-- The portion of `s` strictly before the first occurrence of `pat`
(all of `s` when `pat` does not occur); this is Python
`s.split(pat)[0]`. -/
def takeBefore (pat : List Char) : List Char → List Char
  | [] => []
  | c :: rest =>
    if pat.isPrefixOf (c :: rest) then [] else c :: takeBefore pat rest

/-- Index of the last `]` in a list, or `none`.  Greedy `(.*)\]` matching
captures everything up to the last `]` of the line, which is exactly this
index. -/
def lastIdxClose : List Char → Option Nat
  | [] => none
  | c :: rest =>
    match lastIdxClose rest with
    | some i => some (i + 1)
    | none => if c = ']' then some 0 else none

/-- ASCII approximation of Python's regex class `\w` (`[a-zA-Z0-9_]`); all
tool names appearing in the repository are ASCII. -/
def isWordChar (c : Char) : Bool := c.isAlphanum || c = '_'

/-- The literal pattern of `re.search(r"Thought: (.*)", text)`. -/
def thoughtPat : List Char := "Thought: ".toList

/-- The literal pattern of `re.search(r"Action: (.*)", text)`. -/
def actionPat : List Char := "Action: ".toList

/-- Embeds `ReActAgent._parse_output`: the first line fragment after the
first `"Thought: "` and after the first `"Action: "`, each stripped; the
regex `(.*)` stops at the end of the line (it cannot cross a newline). -/
def ReActAgent.parse_output (text : List Char) :
    Option (List Char) × Option (List Char) :=
  ((findAfter thoughtPat text).map (fun s => pyStrip (s.takeWhile (fun c => c ≠ '\n'))),
   (findAfter actionPat text).map (fun s => pyStrip (s.takeWhile (fun c => c ≠ '\n'))))

/-- Embeds `ReActAgent._parse_action` = `re.match(r"(\w+)\[(.*)\]", t)`:
a non-empty maximal run of word characters, then `[`, then a greedy
capture up to the last `]` on the same line. -/
def ReActAgent.parse_action (t : List Char) :
    Option (List Char × List Char) :=
  let w := t.takeWhile isWordChar
  if w = [] then none
  else
    match t.drop w.length with
    | '[' :: body =>
      let line := body.takeWhile (fun c => c ≠ '\n')
      (lastIdxClose line).map (fun i => (w, line.take i))
    | _ => none

/-- Embeds the inline `re.match(r"Finish\[(.*)\]", action)` of
`ReActAgent.run`: `none` models a failed match (on which the Python code
then raises `AttributeError` by calling `.group(1)` on `None`). -/
def finishPayload (act : List Char) : Option (List Char) :=
  if ("Finish[".toList).isPrefixOf act then
    let line := (act.drop 7).takeWhile (fun c => c ≠ '\n')
    (lastIdxClose line).map (fun i => line.take i)
  else none

/-- Outcome of `ReActAgent.run`: a returned answer, the `return None`
fall-through, or the uncaught `AttributeError` of the malformed-Finish
branch. -/
inductive RRes where
  | ans (a : List Char)
  | noAnswer
  | attrError
deriving Repr, DecidableEq

/-- Observable final state of a run: outcome, final `self.history`, number
of model calls issued, and number of successful tool invocations (steps
that actually ran a registered tool). -/
structure ROut where
  res : RRes
  history : List (List Char)
  calls : Nat
  invs : Nat
deriving Repr, DecidableEq

/-- Embeds the `while current_step < self.maxSteps` body of
`ReActAgent.run`.  `fuel` is `maxSteps - current_step`; `step` indexes the
oracle; `h`, `calls`, `invs` accumulate state.  Faithful branch order:
falsy response → break; no/empty parsed action → break; action starting
with `Finish` → return payload or raise; undecomposable action or empty
tool input → `continue`; unknown tool → the error observation is computed
but the source appends to history only in the `else` branch, so nothing is
appended and the loop continues; found tool → invoke, append the
`Action:`/`Observation:` pair. -/
def ReActAgent.runAux (oracle : Nat → Option (List Char))
    (getTool : List Char → Option (List Char → List Char)) :
    Nat → Nat → List (List Char) → Nat → Nat → ROut
  | 0, _, h, calls, invs => ⟨.noAnswer, h, calls, invs⟩
  | fuel + 1, step, h, calls, invs =>
    match oracle step with
    | none => ⟨.noAnswer, h, calls + 1, invs⟩
    | some resp =>
      if resp = [] then ⟨.noAnswer, h, calls + 1, invs⟩
      else
        match (ReActAgent.parse_output resp).2 with
        | none => ⟨.noAnswer, h, calls + 1, invs⟩
        | some act =>
          if act = [] then ⟨.noAnswer, h, calls + 1, invs⟩
          else if ("Finish".toList).isPrefixOf act then
            match finishPayload act with
            | some p => ⟨.ans p, h, calls + 1, invs⟩
            | none => ⟨.attrError, h, calls + 1, invs⟩
          else
            match ReActAgent.parse_action act with
            | none => ReActAgent.runAux oracle getTool fuel (step + 1) h (calls + 1) invs
            | some (w, inp) =>
              if w = [] || inp = [] then
                ReActAgent.runAux oracle getTool fuel (step + 1) h (calls + 1) invs
              else
                match getTool w with
                | none =>
                  ReActAgent.runAux oracle getTool fuel (step + 1) h (calls + 1) invs
                | some f =>
                  ReActAgent.runAux oracle getTool fuel (step + 1)
                    (h ++ ["Action: ".toList ++ act, "Observation: ".toList ++ f inp])
                    (calls + 1) (invs + 1)

/-- Embeds `ReActAgent.run`: history is reset to `[]`, `current_step` to
`0`, and the loop runs with budget `maxSteps`. -/
def ReActAgent.run (oracle : Nat → Option (List Char))
    (getTool : List Char → Option (List Char → List Char)) (maxSteps : Nat) : ROut :=
  ReActAgent.runAux oracle getTool maxSteps 0 [] 0 0

/-! ## Plan-and-Solve (`plan-executor.py`) -/

/-- The single-quote character, written by code point to keep character
literals simple. -/
def squote : Char := Char.ofNat 39

/-- A Python literal value as produced by `ast.literal_eval`, restricted
to the forms relevant to this repository: strings, integers and
(arbitrarily nested) lists.  Floats, tuples, dicts, booleans and `None`
are outside the model; inputs using them count as parse failures. -/
inductive PyVal where
  | pstr (s : List Char)
  | pint (n : Int)
  | plist (vs : List PyVal)
deriving Repr

/-- One escape step of a Python string literal; unknown escapes keep the
backslash, as Python does. -/
def unescapeChar (c : Char) : List Char :=
  if c = 'n' then ['\n']
  else if c = 't' then ['\t']
  else if c = 'r' then ['\r']
  else if c = '\\' then ['\\']
  else if c = squote then [squote]
  else if c = '"' then ['"']
  else ['\\', c]

/-- Body of a Python string literal opened with quote `q`: consume until
the matching unescaped quote, failing on end of input or a bare newline.
(Structured as a two-character lookahead so the recursion is
structural.) -/
def parseStrBody (q : Char) : List Char → Option (List Char × List Char)
  | [] => none
  | [c] => if c = q then some ([], []) else none
  | c :: d :: rest =>
    if c = q then some ([], d :: rest)
    else if c = '\\' then
      match parseStrBody q rest with
      | none => none
      | some (s, r) => some (unescapeChar d ++ s, r)
    else if c = '\n' then none
    else
      match parseStrBody q (d :: rest) with
      | none => none
      | some (s, r) => some (c :: s, r)

/-- Whitespace skipping inside a literal. -/
def skipWs (s : List Char) : List Char := s.dropWhile isPySpace

/-- Decimal digit run to a natural number. -/
def digitsVal (ds : List Char) : Nat :=
  ds.foldl (fun a c => a * 10 + (c.toNat - 48)) 0

/-- A non-empty run of decimal digits. -/
def parseNat (s : List Char) : Option (Nat × List Char) :=
  let ds := s.takeWhile Char.isDigit
  if ds = [] then none else some (digitsVal ds, s.drop ds.length)

mutual

/-- A Python literal value (fuel-indexed recursive-descent parser for the
fragment described at `PyVal`). -/
def parseVal : Nat → List Char → Option (PyVal × List Char)
  | 0, _ => none
  | fuel + 1, s =>
    match skipWs s with
    | [] => none
    | c :: rest =>
      if c = squote || c = '"' then
        match parseStrBody c rest with
        | none => none
        | some (b, r) => some (.pstr b, r)
      else if c = '[' then
        parseItems fuel rest []
      else if c = '-' then
        match parseNat rest with
        | none => none
        | some (n, r) => some (.pint (-(n : Int)), r)
      else if c.isDigit then
        match parseNat (c :: rest) with
        | none => none
        | some (n, r) => some (.pint (n : Int), r)
      else none

/-- Comma-separated literal items up to a closing `]` (trailing comma
allowed, as in Python). -/
def parseItems : Nat → List Char → List PyVal → Option (PyVal × List Char)
  | 0, _, _ => none
  | fuel + 1, s, acc =>
    match skipWs s with
    | [] => none
    | c :: rest =>
      if c = ']' then some (.plist acc, rest)
      else
        match parseVal fuel (c :: rest) with
        | none => none
        | some (v, r) =>
          match skipWs r with
          | [] => none
          | d :: r2 =>
            if d = ',' then parseItems fuel r2 (acc ++ [v])
            else if d = ']' then some (.plist (acc ++ [v]), r2)
            else none

end

/-- Embeds `ast.literal_eval` (on the fragment described at `PyVal`):
parse one literal and require only whitespace to remain.  The fuel
`2 * length + 2` dominates the recursion depth, every nesting level
consuming at least one character. -/
def literal_eval (s : List Char) : Option PyVal :=
  match parseVal (2 * s.length + 2) s with
  | none => none
  | some (v, r) => if skipWs r = [] then some v else none

/-- The opening fence literal `"```python"` of `Planner.plan`. -/
def fencePy : List Char := "```python".toList

/-- The closing fence literal. -/
def fenceBt : List Char := "```".toList

/-- Embeds `Planner.plan` applied to the (possibly failed) model response:
`response_text or ""`, then
`response_text.split("```python")[1].split("```")[0].strip()` (an absent
opening fence raises `IndexError`, caught to `[]`), then
`ast.literal_eval` (failures caught to `[]`), then
`plan if isinstance(plan, list) else []`. -/
def Planner.plan (resp : Option (List Char)) : List PyVal :=
  let text := resp.getD []
  match findAfter fencePy text with
  | none => []
  | some tail =>
    match literal_eval (pyStrip (takeBefore fenceBt tail)) with
    | some (.plist vs) => vs
    | some _ => []
    | none => []

/-- Python `repr` of a string, for strings not containing quotes or
backslashes (the only case exercised here): single quotes around the
content. -/
def pyReprStr (s : List Char) : List Char := squote :: (s ++ [squote])

/-- Python `str`/`repr` of a list of strings, e.g. `['a', 'b']`; used for
the `{plan}` placeholder of the executor prompt template. -/
def reprStrList (l : List (List Char)) : List Char :=
  '[' :: (List.intercalate ", ".toList (l.map pyReprStr) ++ [']'])

/-- Segment of `EXECUTOR_PROMPT_TEMPLATE` before `{question}`. -/
def execSeg0 : List Char :=
  ("\n你是一位顶级的AI执行专家。你的任务是严格按照给定的计划，一步步地解决问题。\n你将收到原始问题、完整的计划、以及到目前为止已经完成的步骤和结果。\n请你专注于解决“当前步骤”，并仅输出该步骤的最终答案，不要输出任何额外的解释或对话。\n\n# 原始问题:\n").toList

/-- Segment between `{question}` and `{plan}`. -/
def execSeg1 : List Char := ("\n\n# 完整计划:\n").toList

/-- Segment between `{plan}` and `{history}`. -/
def execSeg2 : List Char := ("\n\n# 历史步骤与结果:\n").toList

/-- Segment between `{history}` and `{current_step}`. -/
def execSeg3 : List Char := ("\n\n# 当前步骤:\n").toList

/-- Segment after `{current_step}`. -/
def execSeg4 : List Char := ("\n\n请仅输出针对“当前步骤”的回答:\n").toList

/-- The rendered executor prompt
`EXECUTOR_PROMPT_TEMPLATE.format(question=…, plan=…, history=… if … else "无", current_step=…)`. -/
def execPrompt (question planRepr hist step : List Char) : List Char :=
  execSeg0 ++ question ++ execSeg1 ++ planRepr ++ execSeg2 ++
    (if hist = [] then ("无").toList else hist) ++ execSeg3 ++ step ++ execSeg4

/-- The transcript block
`f"步骤 {i+1}: {step}\n结果: {response_text}\n\n"` appended after each
executor step (`i` is the 0-based plan position). -/
def stepBlock (i : Nat) (step resp : List Char) : List Char :=
  ("步骤 ").toList ++ (toString (i + 1)).toList ++ (": ").toList ++ step ++
    ("\n结果: ").toList ++ resp ++ ("\n\n").toList

/-- Embeds the `for i, step in enumerate(plan)` loop of
`Executor.execute`.  Returns the final value of `response_text` (none for
an empty plan, where the Python variable would be unbound) and the list of
prompts passed to the model, in call order.  The model response is coerced
with `or ""` to the empty string on the `None` sentinel. -/
def Executor.executeAux (oracle : Nat → Option (List Char))
    (question planRepr : List Char) :
    List (List Char) → Nat → List Char → Option (List Char) × List (List Char)
  | [], _, _ => (none, [])
  | step :: rest, i, hist =>
    let prompt := execPrompt question planRepr hist step
    let resp := (oracle i).getD []
    let out := Executor.executeAux oracle question planRepr rest (i + 1)
      (hist ++ stepBlock i step resp)
    (some ((out.1).getD resp), prompt :: out.2)

/-- Embeds `Executor.execute`: transcript starts empty, the final answer
is the last step's `response_text`.  An empty plan gives `none`, modelling
the `NameError` the Python code would raise on its unbound
`response_text` (the orchestrator never calls it that way). -/
def Executor.execute (oracle : Nat → Option (List Char))
    (question : List Char) (plan : List (List Char)) :
    Option (List Char × List (List Char)) :=
  match Executor.executeAux oracle question (reprStrList plan) plan 0 [] with
  | (none, _) => none
  | (some a, ps) => some (a, ps)

/-- Python `str` of a plan element, used when the orchestrator hands the
planner's literal values to the executor.  String elements render as
themselves; integers as their decimal form; a nested list by its
(one-level) repr — no claim depends on non-string plan elements. -/
def pyValStr : PyVal → List Char
  | .pstr s => s
  | .pint n => (toString n).toList
  | .plist vs =>
    reprStrList (vs.map (fun v => match v with | .pstr s => s | _ => []))

/-- Embeds `PlanAndSolveAgent.run`: one model call for the planner (oracle
index 0), then — unless the plan is empty, in which case execution is
short-circuited — the executor consumes the following oracle indices.
Returns the computed final answer (the Python method prints it rather than
returning it) together with the total number of model calls. -/
def PlanAndSolveAgent.run (oracle : Nat → Option (List Char))
    (question : List Char) : Option (List Char) × Nat :=
  match Planner.plan (oracle 0) with
  | [] => (none, 1)
  | v :: vs =>
    match Executor.execute (fun k => oracle (k + 1)) question ((v :: vs).map pyValStr) with
    | some (a, ps) => (some a, 1 + ps.length)
    | none => (none, 1)

/-! ## Supporting lemmas -/

lemma isPrefixOf_append_self (l t : List Char) : l.isPrefixOf (l ++ t) = true := by
  induction l with
  | nil => simp [List.isPrefixOf]
  | cons a as ih => simp [List.isPrefixOf, ih]

lemma takeWhile_all {p : Char → Bool} {l : List Char} (h : ∀ c ∈ l, p c = true) :
    l.takeWhile p = l := by
  induction l with
  | nil => rfl
  | cons a as ih =>
    have ha : p a = true := h a (by simp)
    simp [List.takeWhile, ha, ih (fun c hc => h c (by simp [hc]))]

lemma lastIdxClose_append_close (X : List Char) :
    lastIdxClose (X ++ [']']) = some X.length := by
  induction X with
  | nil => rfl
  | cons c cs ih => simp [lastIdxClose, ih]

lemma findAfter_append_self {pat : List Char} (hp : pat ≠ []) (l : List Char) :
    findAfter pat (pat ++ l) = some l := by
  cases pat with
  | nil => exact absurd rfl hp
  | cons p ps =>
    show findAfter (p :: ps) ((p :: ps) ++ l) = some l
    rw [List.cons_append, findAfter]
    rw [← List.cons_append, if_pos (isPrefixOf_append_self (p :: ps) l)]
    simp [List.drop_left]

/-- `history.length = 2 * invs` is preserved by the loop body. -/
lemma runAux_history_len (oracle : Nat → Option (List Char))
    (getTool : List Char → Option (List Char → List Char)) :
    ∀ fuel step h calls invs, h.length = 2 * invs →
      (ReActAgent.runAux oracle getTool fuel step h calls invs).history.length
        = 2 * (ReActAgent.runAux oracle getTool fuel step h calls invs).invs := by
  intro fuel
  induction fuel with
  | zero => intro step h calls invs hlen; simpa using hlen
  | succ fuel ih =>
    intro step h calls invs hlen
    simp only [ReActAgent.runAux]
    split
    · simpa using hlen
    · split
      · simpa using hlen
      · split
        · simpa using hlen
        · split
          · simpa using hlen
          · split
            · split
              · simpa using hlen
              · simpa using hlen
            · split
              · exact ih _ _ _ _ hlen
              · split
                · exact ih _ _ _ _ hlen
                · split
                  · exact ih _ _ _ _ hlen
                  · refine ih _ _ _ _ ?_
                    simp [hlen, Nat.mul_add]

/-- C1: For every oracle (sequence of model responses), every tool
registry and every step budget, the final ReAct history length is exactly
twice the number of successful tool-invocation steps.  Each successful
invocation appends exactly the `Action:`/`Observation:` pair; a Finish
step, a parse failure, an aborted step or an unknown tool appends nothing;
hence after `N` successful tool-invocation steps with no Finish the
history length is exactly `2 * N`. -/
theorem react_history_growth_invariant
    (oracle : Nat → Option (List Char))
    (getTool : List Char → Option (List Char → List Char)) (maxSteps : Nat) :
    (ReActAgent.run oracle getTool maxSteps).history.length
      = 2 * (ReActAgent.run oracle getTool maxSteps).invs :=
  runAux_history_len oracle getTool maxSteps 0 [] 0 0 (by simp)

/-- The loop issues at most one model call per unit of fuel. -/
lemma runAux_calls_le (oracle : Nat → Option (List Char))
    (getTool : List Char → Option (List Char → List Char)) :
    ∀ fuel step h calls invs,
      (ReActAgent.runAux oracle getTool fuel step h calls invs).calls ≤ calls + fuel := by
  intro fuel
  induction fuel with
  | zero => intro step h calls invs; simp [ReActAgent.runAux]
  | succ fuel ih =>
    intro step h calls invs
    simp only [ReActAgent.runAux]
    split
    · simp; try omega
    · split
      · simp; try omega
      · split
        · simp; try omega
        · split
          · simp; try omega
          · split
            · split
              · simp; try omega
              · simp; try omega
            · split
              · exact le_trans (ih _ _ _ _) (by omega)
              · split
                · exact le_trans (ih _ _ _ _) (by omega)
                · split
                  · exact le_trans (ih _ _ _ _) (by omega)
                  · exact le_trans (ih _ _ _ _) (by omega)

/-- If no response ever parses to an action starting with `Finish`, the
loop can only end in the `return None` fall-through. -/
lemma runAux_no_finish (oracle : Nat → Option (List Char))
    (getTool : List Char → Option (List Char → List Char))
    (hF : ∀ k r a, oracle k = some r → (ReActAgent.parse_output r).2 = some a →
      ("Finish".toList).isPrefixOf a = false) :
    ∀ fuel step h calls invs,
      (ReActAgent.runAux oracle getTool fuel step h calls invs).res = RRes.noAnswer := by
  intro fuel
  induction fuel with
  | zero => intro step h calls invs; simp [ReActAgent.runAux]
  | succ fuel ih =>
    intro step h calls invs
    cases ho : oracle step with
    | none => simp [ReActAgent.runAux, ho]
    | some resp =>
      simp only [ReActAgent.runAux, ho]
      by_cases hre : resp = []
      · simp [hre]
      · rw [if_neg hre]
        cases hact : (ReActAgent.parse_output resp).2 with
        | none => simp
        | some act =>
          simp only []
          by_cases ha : act = []
          · simp [ha]
          · rw [if_neg ha]
            have hfin : ("Finish".toList).isPrefixOf act = false := hF step resp act ho hact
            rw [if_neg (by rw [hfin]; simp)]
            cases hpa : ReActAgent.parse_action act with
            | none => exact ih _ _ _ _
            | some p =>
              obtain ⟨w, inp⟩ := p
              simp only []
              by_cases hw : (w = [] || inp = []) = true
              · rw [if_pos hw]; exact ih _ _ _ _
              · rw [if_neg hw]
                cases getTool w with
                | none => exact ih _ _ _ _
                | some f => exact ih _ _ _ _

/-- C9: for EVERY question and EVERY sequence of model responses,
`ReActAgent.run` terminates within the step budget — at most `maxSteps`
loop iterations, hence at most `maxSteps` model calls (the bound is
unconditional) — and when no model response within the run parses to a
`Finish…` action, it returns no answer (the `return None` fall-through
after the loop). -/
theorem react_step_budget_termination
    (oracle : Nat → Option (List Char))
    (getTool : List Char → Option (List Char → List Char)) (maxSteps : Nat) :
    (ReActAgent.run oracle getTool maxSteps).calls ≤ maxSteps ∧
      ((∀ k r a, oracle k = some r → (ReActAgent.parse_output r).2 = some a →
          ("Finish".toList).isPrefixOf a = false) →
        (ReActAgent.run oracle getTool maxSteps).res = RRes.noAnswer) :=
  ⟨by simpa using runAux_calls_le oracle getTool maxSteps 0 [] 0 0,
   fun hF => runAux_no_finish oracle getTool hF maxSteps 0 [] 0 0⟩

/-- Witness for C9 at a concrete run: a constant tool-calling response
with an empty registry and budget 3. -/
theorem react_step_budget_termination_witness :
    (ReActAgent.run (fun _ => some ("Action: search[x]").toList) (fun _ => none) 3).calls ≤ 3 ∧
      (ReActAgent.run (fun _ => some ("Action: search[x]").toList) (fun _ => none) 3).res
        = RRes.noAnswer := by
  refine ⟨(react_step_budget_termination _ (fun _ => none) 3).1,
    (react_step_budget_termination _ (fun _ => none) 3).2 ?_⟩
  intro k r a hk ha
  have hr : r = ("Action: search[x]").toList := by
    injection hk with h1; exact h1.symm
  subst hr
  have : a = ("search[x]").toList := by
    have : (ReActAgent.parse_output (("Action: search[x]").toList)).2
        = some (("search[x]").toList) := by decide
    rw [this] at ha; injection ha with h2; exact h2.symm
  subst this
  decide

/-- C5: whenever the model call returns the `None` sentinel, or the
response text has no `"Action: "` match, the loop body returns the
no-answer outcome at once, leaving the history exactly as it was before
that step and ignoring any remaining budget; started from step 1 this
leaves zero history entries. -/
theorem react_abort_leaves_history
    (oracle : Nat → Option (List Char))
    (getTool : List Char → Option (List Char → List Char)) :
    (∀ fuel step h calls invs,
        (oracle step = none ∨
          (∃ r, oracle step = some r ∧ findAfter actionPat r = none)) →
        ReActAgent.runAux oracle getTool (fuel + 1) step h calls invs
          = ⟨RRes.noAnswer, h, calls + 1, invs⟩) ∧
    (∀ n,
        (oracle 0 = none ∨
          (∃ r, oracle 0 = some r ∧ findAfter actionPat r = none)) →
        ReActAgent.run oracle getTool (n + 1) = ⟨RRes.noAnswer, [], 1, 0⟩) := by
  have main : ∀ fuel step h calls invs,
      (oracle step = none ∨
        (∃ r, oracle step = some r ∧ findAfter actionPat r = none)) →
      ReActAgent.runAux oracle getTool (fuel + 1) step h calls invs
        = ⟨RRes.noAnswer, h, calls + 1, invs⟩ := by
    intro fuel step h calls invs hcond
    rcases hcond with ho | ⟨r, ho, hfa⟩
    · simp [ReActAgent.runAux, ho]
    · simp only [ReActAgent.runAux, ho]
      by_cases hre : r = []
      · simp [hre]
      · rw [if_neg hre]
        have hp : (ReActAgent.parse_output r).2 = none := by
          simp [ReActAgent.parse_output, hfa]
        rw [hp]
  exact ⟨main, fun n hc => main n 0 [] 0 0 hc⟩

/-- Witness for C5: a sentinel failure on step 1 and a response with no
`Action:` line on step 1 each end the run with an empty history. -/
theorem react_abort_leaves_history_witness :
    ReActAgent.run (fun _ => none) (fun _ => none) 3 = ⟨RRes.noAnswer, [], 1, 0⟩ ∧
      ReActAgent.run (fun _ => some ("I have no idea.").toList) (fun _ => none) 5
        = ⟨RRes.noAnswer, [], 1, 0⟩ :=
  ⟨(react_abort_leaves_history (fun _ => none) (fun _ => none)).2 2 (Or.inl rfl),
   (react_abort_leaves_history (fun _ => some ("I have no idea.").toList) (fun _ => none)).2 4
     (Or.inr ⟨("I have no idea.").toList, rfl, by decide⟩)⟩

/-- C10: an empty-but-valid model response (`some ""`) on step 1 is
indistinguishable from the failure sentinel (`none`): both runs terminate
immediately with no answer, no history entries, and a single model call,
because `if not response_text` conflates the two. -/
theorem react_empty_response_equals_failure
    (o1 o2 : Nat → Option (List Char))
    (getTool : List Char → Option (List Char → List Char)) (n : Nat)
    (hn : 1 ≤ n) (h1 : o1 0 = some []) (h2 : o2 0 = none) :
    ReActAgent.run o1 getTool n = ReActAgent.run o2 getTool n ∧
      ReActAgent.run o1 getTool n = ⟨RRes.noAnswer, [], 1, 0⟩ := by
  obtain ⟨m, rfl⟩ : ∃ m, n = m + 1 := ⟨n - 1, by omega⟩
  have e1 : ReActAgent.run o1 getTool (m + 1) = ⟨RRes.noAnswer, [], 1, 0⟩ := by
    simp [ReActAgent.run, ReActAgent.runAux, h1]
  have e2 : ReActAgent.run o2 getTool (m + 1) = ⟨RRes.noAnswer, [], 1, 0⟩ := by
    simp [ReActAgent.run, ReActAgent.runAux, h2]
  exact ⟨e1.trans e2.symm, e1⟩

/-- Witness for C10 at a concrete pair of oracles and budget 4. -/
theorem react_empty_response_equals_failure_witness :
    ReActAgent.run (fun _ => some []) (fun _ => none) 4
        = ReActAgent.run (fun _ => none) (fun _ => none) 4 ∧
      ReActAgent.run (fun _ => some []) (fun _ => none) 4
        = ⟨RRes.noAnswer, [], 1, 0⟩ :=
  react_empty_response_equals_failure (fun _ => some []) (fun _ => none)
    (fun _ => none) 4 (by omega) rfl rfl

/-- Greedy payload extraction of `re.match(r"Finish\[(.*)\]", …)` on a
well-formed `Finish[X]` action recovers exactly `X`, even when `X` itself
contains brackets. -/
lemma finishPayload_wrap (X : List Char) (hnl : '\n' ∉ X) :
    finishPayload (("Finish[").toList ++ (X ++ [']'])) = some X := by
  unfold finishPayload
  rw [if_pos (by simp [isPrefixOf_append_self])]
  have hdrop : (("Finish[").toList ++ (X ++ [']'])).drop 7 = X ++ [']'] :=
    List.drop_left' (by decide)
  rw [hdrop]
  have htake : (X ++ [']']).takeWhile (fun c => c ≠ '\n') = X ++ [']'] := by
    refine takeWhile_all ?_
    intro c hc
    rcases List.mem_append.mp hc with hx | hx
    · simp only [decide_eq_true_eq]
      intro hq
      exact hnl (hq ▸ hx)
    · simp at hx; simp [hx]
  simp only [htake, lastIdxClose_append_close, Option.map_some']
  rw [List.take_left]

/-- C3: whenever the parsed action of the current response is exactly
`Finish[X]`, the loop returns `X` itself — verbatim, with no whitespace
added or removed — without any tool dispatch or history append,
regardless of what tool-syntax-looking text appears elsewhere in the
response.  (`X` is newline-free because a parsed action is a single
line.) -/
theorem react_finish_short_circuit
    (oracle : Nat → Option (List Char))
    (getTool : List Char → Option (List Char → List Char))
    (fuel step : Nat) (h : List (List Char)) (calls invs : Nat)
    (X resp : List Char) (hnl : '\n' ∉ X)
    (ho : oracle step = some resp) (hre : resp ≠ [])
    (hact : (ReActAgent.parse_output resp).2
      = some (("Finish[").toList ++ (X ++ [']']))) :
    ReActAgent.runAux oracle getTool (fuel + 1) step h calls invs
      = ⟨RRes.ans X, h, calls + 1, invs⟩ := by
  simp only [ReActAgent.runAux, ho]
  rw [if_neg hre, hact]
  simp only []
  rw [if_neg (by simp)]
  have hsplit : ("Finish[").toList ++ (X ++ [']'])
      = ("Finish").toList ++ ('[' :: (X ++ [']'])) := by
    have : ("Finish[").toList = ("Finish").toList ++ ['['] := by decide
    simp [this]
  rw [if_pos (by rw [hsplit]; simp [isPrefixOf_append_self])]
  rw [finishPayload_wrap X hnl]

/-- Witness for C3: a response whose Thought line contains tool-syntax
text and whose Finish payload itself contains brackets is returned
verbatim, with one model call and an untouched history. -/
theorem react_finish_short_circuit_witness :
    '\n' ∉ ("a[1]").toList ∧
      ReActAgent.run
          (fun _ => some ("Thought: search[q] seems done\nAction: Finish[a[1]]").toList)
          (fun _ => none) 5
        = ⟨RRes.ans (("a[1]").toList), [], 1, 0⟩ :=
  ⟨by decide,
   react_finish_short_circuit
     (fun _ => some ("Thought: search[q] seems done\nAction: Finish[a[1]]").toList)
     (fun _ => none) 4 0 [] 0 0 (("a[1]").toList)
     (("Thought: search[q] seems done\nAction: Finish[a[1]]").toList)
     (by decide) rfl (by decide) (by decide)⟩

lemma takeWhile_append_stop {p : Char → Bool} {l : List Char}
    (h : ∀ c ∈ l, p c = true) {x : Char} (hx : p x = false) (rest : List Char) :
    (l ++ x :: rest).takeWhile p = l := by
  induction l with
  | nil => simp [List.takeWhile, hx]
  | cons a as ih =>
    have ha : p a = true := h a (by simp)
    simp [List.takeWhile, ha, ih (fun c hc => h c (by simp [hc]))]

lemma takeWhile_ne_nl_close (X : List Char) (hnl : '\n' ∉ X) :
    (X ++ [']']).takeWhile (fun c => c ≠ '\n') = X ++ [']'] := by
  refine takeWhile_all ?_
  intro c hc
  rcases List.mem_append.mp hc with hx | hx
  · simp only [decide_eq_true_eq]
    intro hq
    exact hnl (hq ▸ hx)
  · simp at hx; simp [hx]

/-- Greedy decomposition `re.match(r"(\w+)\[(.*)\]", …)` on a well-formed
`name[payload]` action recovers the name and the full payload — including
payloads that contain a literal `]`, since the greedy capture extends to
the last `]` of the line. -/
lemma parse_action_wrap (w X : List Char) (hw : w ≠ [])
    (hwc : ∀ c ∈ w, isWordChar c = true) (hnl : '\n' ∉ X) :
    ReActAgent.parse_action (w ++ '[' :: (X ++ [']'])) = some (w, X) := by
  unfold ReActAgent.parse_action
  have htw : (w ++ '[' :: (X ++ [']'])).takeWhile isWordChar = w :=
    takeWhile_append_stop hwc (by decide) _
  simp only [htw]
  rw [if_neg hw]
  simp only [List.drop_left]
  simp only [takeWhile_ne_nl_close X hnl, lastIdxClose_append_close, Option.map_some']
  rw [List.take_left]

/-- C8 (amended): output parsing uses only the first match per pattern —
the extracted Thought and Action are those of the first `Thought: ` /
`Action: ` line, independent of everything after that line (including a
second `Action:` line) — and bracket payload extraction is greedy up to
the LAST `]` of the line, so an action text `name[payload]` whose payload
contains a literal `]` IS decomposed, the name and the full payload being
found. -/
theorem react_parse_first_match_and_greedy :
    (∀ l rest : List Char, '\n' ∉ l →
      (ReActAgent.parse_output (thoughtPat ++ (l ++ '\n' :: rest))).1
        = some (pyStrip l)) ∧
    (∀ l rest : List Char, '\n' ∉ l →
      (ReActAgent.parse_output (actionPat ++ (l ++ '\n' :: rest))).2
        = some (pyStrip l)) ∧
    (∀ w X : List Char, w ≠ [] → (∀ c ∈ w, isWordChar c = true) → '\n' ∉ X →
      ReActAgent.parse_action (w ++ '[' :: (X ++ [']'])) = some (w, X)) := by
  refine ⟨?_, ?_, parse_action_wrap⟩
  · intro l rest hnl
    unfold ReActAgent.parse_output
    rw [findAfter_append_self (by decide) (l ++ '\n' :: rest)]
    have : (l ++ '\n' :: rest).takeWhile (fun c => c ≠ '\n') = l := by
      refine takeWhile_append_stop ?_ (by simp) rest
      intro c hc
      simp only [decide_eq_true_eq]
      intro hq
      exact hnl (hq ▸ hc)
    simp only [Option.map_some']
    rw [this]
  · intro l rest hnl
    unfold ReActAgent.parse_output
    rw [findAfter_append_self (by decide) (l ++ '\n' :: rest)]
    have : (l ++ '\n' :: rest).takeWhile (fun c => c ≠ '\n') = l := by
      refine takeWhile_append_stop ?_ (by simp) rest
      intro c hc
      simp only [decide_eq_true_eq]
      intro hq
      exact hnl (hq ▸ hc)
    simp only [Option.map_some']
    rw [this]

/-- Witness for C8 (amended) at concrete inputs: a second `Action:` line
is ignored, and a payload containing `]` is decomposed in full. -/
theorem react_parse_first_match_and_greedy_witness :
    (ReActAgent.parse_output
        (thoughtPat ++ (("look at serp_search[q]").toList
          ++ '\n' :: ("Thought: second").toList))).1
      = some (pyStrip (("look at serp_search[q]").toList)) ∧
    (ReActAgent.parse_output
        (actionPat ++ (("serp_search[a] trailing").toList
          ++ '\n' :: ("Action: other[y]").toList))).2
      = some (pyStrip (("serp_search[a] trailing").toList)) ∧
    ReActAgent.parse_action
        (("serp_search").toList ++ '[' :: ((("a]b").toList) ++ [']']))
      = some ((("serp_search").toList), ("a]b").toList) :=
  ⟨react_parse_first_match_and_greedy.1 _ _ (by decide),
   react_parse_first_match_and_greedy.2.1 _ _ (by decide),
   react_parse_first_match_and_greedy.2.2 _ _ (by decide) (by decide) (by decide)⟩

/-- Counterexample for C8 as stated: the action text `search[a]b]`, whose
payload contains a literal `]`, is NOT treated as "tool name and input
not found": the decomposition succeeds, returning name `search` and input
`a]b`. -/
theorem react_parse_greedy_counterexample :
    ReActAgent.parse_action (("search[a]b]").toList)
        = some ((("search").toList), (("a]b").toList)) ∧
      ReActAgent.parse_action (("search[a]b]").toList) ≠ none := by
  constructor
  · decide
  · decide

/-- C2 (code_bug evidence): with the response `Action: foo[x]` and a
registry that does not know `foo`, the run ends with an EMPTY history —
the synthetic "tool not found" observation is computed by the source but
appended nowhere, because the two `history.append` calls sit inside the
`else` branch only — while both budget slots are still consumed
(`calls = 2` under `maxSteps = 2`, so the not-found step did consume a
slot and the loop continued). -/
theorem react_tool_not_found_drops_observation :
    ReActAgent.run (fun _ => some (("Action: foo[x]").toList)) (fun _ => none) 2
      = ⟨RRes.noAnswer, [], 2, 0⟩ := by
  decide

/-- C4 (code_bug evidence): a response whose action starts with `Finish`
but is not of the shape `Finish[...]` — here `Finished[42]` — makes
`re.match(r"Finish\[(.*)\]", action)` return `None`, and the source then
calls `.group(1)` on it: the run ends in the uncaught `AttributeError`
outcome rather than any sentinel or synthetic observation. -/
theorem react_malformed_finish_raises :
    ReActAgent.run (fun _ => some (("Action: Finished[42]").toList)) (fun _ => none) 3
      = ⟨RRes.attrError, [], 1, 0⟩ := by
  decide

/-- C6: `Planner.plan` returns the parsed list for a well-fenced
response — on `"```python\n['a','b']\n```"` it returns `["a", "b"]` —
and returns the empty sequence on every parse failure: missing opening
fence, a literal that does not parse, or a parsed literal that is not a
list. -/
theorem planner_plan_parse :
    Planner.plan (some (("```python\n['a','b']\n```").toList))
        = [PyVal.pstr (("a").toList), PyVal.pstr (("b").toList)] ∧
    (∀ t : List Char, findAfter fencePy t = none → Planner.plan (some t) = []) ∧
    (∀ t tail : List Char, findAfter fencePy t = some tail →
        literal_eval (pyStrip (takeBefore fenceBt tail)) = none →
        Planner.plan (some t) = []) ∧
    (∀ (t tail : List Char) (v : PyVal), findAfter fencePy t = some tail →
        literal_eval (pyStrip (takeBefore fenceBt tail)) = some v →
        (∀ vs, v ≠ PyVal.plist vs) → Planner.plan (some t) = []) := by
  refine ⟨by rfl, ?_, ?_, ?_⟩
  · intro t hfence
    simp only [Planner.plan, Option.getD_some, hfence]
  · intro t tail hfence heval
    simp only [Planner.plan, Option.getD_some, hfence, heval]
  · intro t tail v hfence heval hnl
    cases v with
    | pstr s => simp only [Planner.plan, Option.getD_some, hfence, heval]
    | pint n => simp only [Planner.plan, Option.getD_some, hfence, heval]
    | plist vs => exact absurd rfl (hnl vs)

/-- Witness for C6: concrete failing responses for each failure mode —
no fence, a malformed literal, a non-list literal — all yield the empty
plan. -/
theorem planner_plan_parse_witness :
    Planner.plan (some (("here is a plan: do it").toList)) = [] ∧
      Planner.plan (some (("```python\n[broken\n```").toList)) = [] ∧
      Planner.plan (some (("```python\n42\n```").toList)) = [] :=
  ⟨planner_plan_parse.2.1 _ (by decide),
   planner_plan_parse.2.2.1 _ (("\n[broken\n```").toList) (by decide) (by rfl),
   planner_plan_parse.2.2.2 _ (("\n42\n```").toList)
     (PyVal.pint 42) (by decide) (by rfl)
     (fun vs h => PyVal.noConfusion h)⟩

/-- The executor issues exactly one prompt per plan step. -/
lemma executeAux_prompts_len (oracle : Nat → Option (List Char)) (q pr : List Char) :
    ∀ steps i hist,
      (Executor.executeAux oracle q pr steps i hist).2.length = steps.length := by
  intro steps
  induction steps with
  | nil => intro i hist; simp [Executor.executeAux]
  | cons s rest ih => intro i hist; simp [Executor.executeAux, ih]

/-- The final `response_text` is the (coerced) response to the last plan
step. -/
lemma executeAux_last (oracle : Nat → Option (List Char)) (q pr : List Char) :
    ∀ steps i hist, steps ≠ [] →
      (Executor.executeAux oracle q pr steps i hist).1
        = some ((oracle (i + steps.length - 1)).getD []) := by
  intro steps
  induction steps with
  | nil => intro i hist h; exact absurd rfl h
  | cons s rest ih =>
    intro i hist _
    by_cases hr : rest = []
    · subst hr
      simp [Executor.executeAux]
    · simp only [Executor.executeAux]
      rw [ih (i + 1) _ hr]
      simp only [Option.getD_some]
      have : i + 1 + rest.length - 1 = i + (s :: rest).length - 1 := by
        simp only [List.length_cons]; omega
      rw [this]

/-- Anything that is an infix of a non-empty transcript stays an infix of
every later prompt: the transcript is embedded verbatim in each prompt and
only ever grows by appending. -/
lemma executeAux_hist_infix (oracle : Nat → Option (List Char)) (q pr : List Char) :
    ∀ steps i hist (x : List Char), x <:+: hist → hist ≠ [] →
      ∀ p ∈ (Executor.executeAux oracle q pr steps i hist).2, x <:+: p := by
  intro steps
  induction steps with
  | nil => intro i hist x hx hne p hp; simp [Executor.executeAux] at hp
  | cons s rest ih =>
    intro i hist x hx hne p hp
    simp only [Executor.executeAux, List.mem_cons] at hp
    rcases hp with hp | hp
    · subst hp
      refine hx.trans ?_
      refine ⟨execSeg0 ++ q ++ execSeg1 ++ pr ++ execSeg2,
        execSeg3 ++ s ++ execSeg4, ?_⟩
      simp [execPrompt, hne, List.append_assoc]
    · refine ih (i + 1) _ x (hx.trans ⟨[], stepBlock i s ((oracle i).getD []), by simp⟩)
        (by simp [hne]) p hp

/-- Each prior step's (coerced) model response appears verbatim in every
later prompt. -/
lemma executeAux_result_infix (oracle : Nat → Option (List Char)) (q pr : List Char) :
    ∀ steps i hist j k p, j < k →
      (Executor.executeAux oracle q pr steps i hist).2.get? k = some p →
      ((oracle (i + j)).getD []) <:+: p := by
  intro steps
  induction steps with
  | nil => intro i hist j k p hjk hget; simp [Executor.executeAux] at hget
  | cons s rest ih =>
    intro i hist j k p hjk hget
    simp only [Executor.executeAux] at hget
    cases k with
    | zero => omega
    | succ k2 =>
      rw [List.get?_cons_succ] at hget
      cases j with
      | zero =>
        have hblock : ((oracle i).getD []) <:+: stepBlock i s ((oracle i).getD []) := by
          refine ⟨("步骤 ").toList ++ (toString (i + 1)).toList ++ (": ").toList
            ++ s ++ ("\n结果: ").toList, ("\n\n").toList, ?_⟩
          simp [stepBlock, List.append_assoc]
        have hinf : ((oracle i).getD [])
            <:+: hist ++ stepBlock i s ((oracle i).getD []) :=
          hblock.trans ⟨hist, [], by simp⟩
        have hne2 : hist ++ stepBlock i s ((oracle i).getD []) ≠ [] := by
          simp [stepBlock]
        have hmem : p ∈ (Executor.executeAux oracle q pr rest (i + 1)
            (hist ++ stepBlock i s ((oracle i).getD []))).2 :=
          List.get?_mem hget
        simpa using executeAux_hist_infix oracle q pr rest (i + 1) _ _ hinf hne2 p hmem
      | succ j2 =>
        have hrec := ih (i + 1) (hist ++ stepBlock i s ((oracle i).getD []))
          j2 k2 p (by omega) hget
        have heq : i + 1 + j2 = i + (j2 + 1) := by omega
        rw [heq] at hrec
        exact hrec

/-- C7: on every non-empty plan of `n` subtasks the executor calls the
model exactly `n` times, once per subtask in order with no early exit; the
transcript inside the prompt of call `k` contains every earlier call's
(coerced) result verbatim; a `None` model result is coerced to the empty
string; and the final answer is exactly the last step's result.  The
Plan-and-Solve orchestrator short-circuits on an empty plan: one planner
call, no executor call. -/
theorem executor_sequential_execution
    (oracle : Nat → Option (List Char)) (q : List Char)
    (plan : List (List Char)) (hne : plan ≠ []) :
    (∃ a ps, Executor.execute oracle q plan = some (a, ps) ∧
      ps.length = plan.length ∧
      a = (oracle (plan.length - 1)).getD [] ∧
      ∀ j k p, j < k → ps.get? k = some p → ((oracle j).getD []) <:+: p) ∧
    (∀ (o2 : Nat → Option (List Char)) (q2 : List Char),
      Planner.plan (o2 0) = [] → PlanAndSolveAgent.run o2 q2 = (none, 1)) := by
  constructor
  · have hlast := executeAux_last oracle q (reprStrList plan) plan 0 [] hne
    have hlen := executeAux_prompts_len oracle q (reprStrList plan) plan 0 []
    rcases hE : Executor.executeAux oracle q (reprStrList plan) plan 0 [] with ⟨a?, ps⟩
    rw [hE] at hlast hlen
    cases a? with
    | none => simp at hlast
    | some a =>
      simp only [Option.some.injEq] at hlast
      refine ⟨a, ps, ?_, ?_, ?_, ?_⟩
      · simp [Executor.execute, hE]
      · simpa using hlen
      · simpa using hlast
      · intro j k p hjk hget
        have := executeAux_result_infix oracle q (reprStrList plan) plan 0 [] j k p hjk
          (by rw [hE]; exact hget)
        simpa using this
  · intro o2 q2 hplan
    simp only [PlanAndSolveAgent.run, hplan]

/-- Witness for C7: a 3-item plan makes exactly 3 model calls, every
prior result is carried in later prompts, the final answer is the third
response, and an orchestrator whose planner yields `[]` stops after the
single planner call. -/
theorem executor_sequential_execution_witness :
    (∃ a ps, Executor.execute (fun i => some (("R" ++ toString i).toList))
        (("Q").toList) [("s0").toList, ("s1").toList, ("s2").toList] = some (a, ps) ∧
      ps.length = ([("s0").toList, ("s1").toList, ("s2").toList]).length ∧
      a = ((fun i : Nat => some (("R" ++ toString i).toList))
        (([("s0").toList, ("s1").toList, ("s2").toList]).length - 1)).getD [] ∧
      ∀ j k p, j < k → ps.get? k = some p →
        (((fun i : Nat => some (("R" ++ toString i).toList)) j).getD []) <:+: p) ∧
    (∀ (o2 : Nat → Option (List Char)) (q2 : List Char),
      Planner.plan (o2 0) = [] → PlanAndSolveAgent.run o2 q2 = (none, 1)) :=
  executor_sequential_execution (fun i => some (("R" ++ toString i).toList))
    (("Q").toList) [("s0").toList, ("s1").toList, ("s2").toList] (by decide)
